import Mathlib

/-!
Verification of the tabular preprocessing and clustering-training pipeline.

The pipeline has two stages:
* `preprocess_data` — median imputation of missing numeric entries,
  duplicate-row removal, and a residual zero-fill fallback;
* `train_model` — identifier-column drop, missing-value validation,
  per-feature standardization, and best-of-`n_init` Lloyd clustering
  with a metrics record.

A table is an ordered sequence of rows over a fixed column schema; each
cell either holds a value (numeric or textual) or is missing.
-/

/-- A cell value: a (rational) number or a textual value such as a
customer identifier. -/
inductive Val where
  | num (q : ℚ)
  | str (s : String)
  deriving DecidableEq, Repr

/-- A cell is a possibly missing value (`none` models NaN). -/
abbrev Cell := Option Val

/-- A row is the ordered list of its cells, parallel to the header. -/
abbrev Row := List Cell

/-- A table: column names, a parallel flag marking numeric (float/int
dtype) columns, and the ordered rows. -/
structure Table where
  header : List String
  numericCol : List Bool
  rows : List Row
  deriving DecidableEq, Repr

/-- Cell at row `i`, column `j` (missing when out of range). -/
def cellAt (t : Table) (i j : ℕ) : Cell :=
  (t.rows.getD i []).getD j none

/-- The cells of column `j`, top to bottom. -/
def colVals (t : Table) (j : ℕ) : List Cell :=
  t.rows.map (fun r => r.getD j none)

/-- The numeric entries among a list of cells (non-missing numbers). -/
def numericEntries (cs : List Cell) : List ℚ :=
  cs.filterMap (fun c => match c with | some (Val.num q) => some q | _ => none)

/-- Insert into a sorted list, keeping it sorted. -/
def insertSorted (x : ℚ) : List ℚ → List ℚ
  | [] => [x]
  | y :: ys => if x ≤ y then x :: y :: ys else y :: insertSorted x ys

/-- Sort a list of rationals ascending (insertion sort). -/
def sortQ (l : List ℚ) : List ℚ := l.foldr insertSorted []

/-- Median of a sample, as pandas computes it: sort; the middle element
for odd length, the mean of the two middle elements for even length;
undefined (`none`) on the empty sample. -/
def medianQ (l : List ℚ) : Option ℚ :=
  if l.length = 0 then none
  else
    let s := sortQ l
    let n := l.length
    if n % 2 = 1 then some (s.getD (n / 2) 0)
    else some ((s.getD (n / 2 - 1) 0 + s.getD (n / 2) 0) / 2)

/-- The fill value the Imputer chooses for column `j` of `t`: the median
of the column's non-missing numeric entries, or `0` when the median is
undefined because every entry is missing. -/
def fillValueFor (t : Table) (j : ℕ) : ℚ :=
  match medianQ (numericEntries (colVals t j)) with
  | some m => m
  | none => 0

/-- Count of missing cells in column `j`. -/
def countMissingCol (t : Table) (j : ℕ) : ℕ :=
  (colVals t j).countP (fun c => c.isNone)

/-- Count of missing cells in the whole table (`df.isnull().sum().sum()`). -/
def countMissing (t : Table) : ℕ :=
  (t.rows.map (fun r => r.countP (fun c => c.isNone))).sum

/-- Map a function receiving the cell index over a row, starting the
index count at `s`. -/
def mapWithIdx (f : ℕ → Cell → Cell) : ℕ → Row → Row
  | _, [] => []
  | s, c :: cs => f s c :: mapWithIdx f (s + 1) cs

/-- `df[col] = df[col].fillna(v)`: replace every missing entry of column
`j` by the number `v`; all other cells are untouched. -/
def fillColumn (t : Table) (j : ℕ) (v : ℚ) : Table :=
  { t with rows := t.rows.map (fun r =>
      mapWithIdx (fun j' c => if j' = j ∧ c = none then some (Val.num v) else c) 0 r) }

/-- One iteration of the imputation loop: if column `j` is numeric and
has at least one missing entry, fill its missing entries with the median
fallback value computed from the current table. -/
def imputeStep (acc : Table) (j : ℕ) : Table :=
  if acc.numericCol.getD j false = true ∧ 0 < countMissingCol acc j then
    fillColumn acc j (fillValueFor acc j)
  else acc

/-- The Imputer: the per-column fill loop of `preprocess_data`, run over
every column position (non-numeric columns are skipped by the dtype
check inside `imputeStep`). -/
def imputeTable (t : Table) : Table :=
  (List.range t.header.length).foldl imputeStep t

/-- `drop_duplicates`, with the rows seen so far accumulated: a row
equal to an already seen row is dropped, otherwise kept and recorded. -/
def dropDupsAux : List Row → List Row → List Row
  | _, [] => []
  | seen, r :: rs =>
    if r ∈ seen then dropDupsAux seen rs
    else r :: dropDupsAux (r :: seen) rs

/-- The Deduplicator on row lists: `df.drop_duplicates()`, keeping the
first occurrence of each distinct row. -/
def dropDuplicates (l : List Row) : List Row := dropDupsAux [] l

/-- The Deduplicator on tables. -/
def dedupTable (t : Table) : Table :=
  { t with rows := dropDuplicates t.rows }

/-- `df.fillna(0)`: the residual fallback, replacing every missing cell
of every column (numeric or not) by the number `0`. -/
def fillZeroTable (t : Table) : Table :=
  { t with rows := t.rows.map (fun r => r.map (fun c => some (c.getD (Val.num 0)))) }

/-- The preprocessing stage `preprocess_data`: impute, deduplicate, and
apply the zero-fill fallback exactly when missing values remain. -/
def preprocess_data (t : Table) : Table :=
  let a := dedupTable (imputeTable t)
  if 0 < countMissing a then fillZeroTable a else a

/-- Bit mask selecting the header positions to keep when a column is
dropped by label. -/
def filterByMask {β : Type} (mask : List Bool) (l : List β) : List β :=
  (List.zip l mask).filterMap (fun p => if p.2 then some p.1 else none)

/-- `df.drop(name, axis=1)`: remove every column whose label is `name`. -/
def dropColumn (t : Table) (name : String) : Table :=
  let mask := t.header.map (fun h => decide (h ≠ name))
  { header := filterByMask mask t.header
    numericCol := filterByMask mask t.numericCol
    rows := t.rows.map (fun r => filterByMask mask r) }

/-- The identifier drop of `train_model`: remove the `CUST_ID` column
when present. -/
def dropCustId (t : Table) : Table :=
  if "CUST_ID" ∈ t.header then dropColumn t "CUST_ID" else t

/-- The Validator of `train_model`: raise `ValueError` when any missing
value remains in the (post-drop) table, otherwise pass the table on
unchanged. -/
def nanCheck (d : Table) : Except String Table :=
  if 0 < countMissing d then
    Except.error "Preprocessing failed: NaN values detected. Re-run preprocessing."
  else Except.ok d

/-- Numeric reading of a cell for the feature matrix (after validation
every feature cell is a non-missing number). -/
noncomputable def cellToReal (c : Cell) : ℝ :=
  match c with
  | some (Val.num q) => (q : ℝ)
  | _ => 0

/-- Mean of a feature column (population mean, as `StandardScaler` uses). -/
noncomputable def colMean (xs : List ℝ) : ℝ := xs.sum / xs.length

/-- Population variance of a feature column (`ddof = 0`). -/
noncomputable def colVarP (xs : List ℝ) : ℝ :=
  ((xs.map (fun x => (x - colMean xs) ^ 2)).sum) / xs.length

/-- Standard deviation of a feature column. -/
noncomputable def colStd (xs : List ℝ) : ℝ := Real.sqrt (colVarP xs)

/-- The divisor `StandardScaler` actually uses: a zero standard
deviation is replaced by `1` so that a constant feature is mapped to
zeros instead of dividing by zero. -/
noncomputable def scaleOf (xs : List ℝ) : ℝ :=
  if colStd xs = 0 then 1 else colStd xs

/-- `StandardScaler.fit_transform` on one feature column:
`(x - mean) / scale` element-wise. -/
noncomputable def standardizeCol (xs : List ℝ) : List ℝ :=
  xs.map (fun x => (x - colMean xs) / scaleOf xs)

/-- The numeric reading of column `j`. -/
noncomputable def colRealVals (t : Table) (j : ℕ) : List ℝ :=
  (colVals t j).map cellToReal

/-- The standardized feature matrix, row by row. -/
noncomputable def scaledRows (t : Table) : List (List ℝ) :=
  t.rows.map (fun r => (List.range t.header.length).map (fun j =>
    (cellToReal (r.getD j none) - colMean (colRealVals t j)) / scaleOf (colRealVals t j)))

section KMeans

variable {α : Type} [LinearOrderedField α]

/-- Modelled from the spec: squared Euclidean distance between two
points of feature space. -/
def sqDist (p q : List α) : α :=
  (List.zipWith (fun a b => (a - b) ^ 2) p q).sum

/-- Modelled from the spec: index of the nearest centroid to `p`, ties
broken by the lowest centroid index (the fold only moves on a strictly
smaller distance). -/
def nearestIdx (cs : List (List α)) (p : List α) : ℕ :=
  match cs with
  | [] => 0
  | c :: rest =>
    (rest.foldl (fun b c' =>
      if sqDist p c' < b.2.1 then (b.2.2, sqDist p c', b.2.2 + 1)
      else (b.1, b.2.1, b.2.2 + 1)) ((0 : ℕ), sqDist p c, (1 : ℕ))).1

/-- Modelled from the spec: the assignment step, one nearest-centroid
index per point. -/
def assignPts (cs : List (List α)) (pts : List (List α)) : List ℕ :=
  pts.map (nearestIdx cs)

/-- Componentwise sum of two points. -/
def vecAdd (p q : List α) : List α := List.zipWith (· + ·) p q

/-- Componentwise mean of a set of `d`-dimensional points. -/
def vecMean (d : ℕ) (ps : List (List α)) : List α :=
  (ps.foldl vecAdd (List.replicate d 0)).map (fun x => x / (ps.length : α))

/-- Modelled from the spec: the update step; each centroid becomes the
mean of its assigned points, and a centroid with no assigned points is
left unchanged. -/
def updateCentroids (d : ℕ) (cs : List (List α)) (pts : List (List α)) : List (List α) :=
  (List.range cs.length).map (fun i =>
    let assigned := pts.filter (fun p => decide (nearestIdx cs p = i))
    if assigned.length = 0 then cs.getD i (List.replicate d 0)
    else vecMean d assigned)

/-- Modelled from the spec: Lloyd iteration, stopping when no point
changes its assignment or when the iteration cap runs out. -/
def lloydLoop (d : ℕ) (pts : List (List α)) : ℕ → List (List α) → List (List α)
  | 0, cs => cs
  | fuel + 1, cs =>
    let cs' := updateCentroids d cs pts
    if assignPts cs' pts = assignPts cs pts then cs'
    else lloydLoop d pts fuel cs'

/-- Modelled from the spec: inertia, the sum over all points of the
squared distance to the assigned centroid. -/
def inertiaOf (cs : List (List α)) (pts : List (List α)) : α :=
  (pts.map (fun p => sqDist p (cs.getD (nearestIdx cs p) []))).sum

/-- A linear congruential step, the deterministic random stream behind
centroid seeding. -/
def lcgNext (s : ℕ) : ℕ := (1664525 * s + 1013904223) % 4294967296

/-- Modelled from the spec: draw up to `k` distinct row indices below
`n` from the seeded random stream (fuel-bounded). -/
def drawDistinct (n k : ℕ) : ℕ → ℕ → List ℕ → List ℕ
  | 0, _, acc => acc
  | fuel + 1, s, acc =>
    if k ≤ acc.length then acc
    else
      let s' := lcgNext s
      let i := s' % n
      if i ∈ acc then drawDistinct n k fuel s' acc
      else drawDistinct n k fuel s' (acc ++ [i])

/-- Modelled from the spec: the `k` starting row indices for one
restart; padded deterministically when the stream cannot supply `k`
distinct ones. -/
def initIdxs (n k seed : ℕ) : List ℕ :=
  let picked := drawDistinct n k (k * n + 1000) seed []
  picked ++ ((List.range n).filter (fun i => decide (i ∉ picked))).take (k - picked.length)

/-- Modelled from the spec: random selection of `k` distinct rows of the
standardized table as starting centroids. -/
def initCentroids (k seed : ℕ) (pts : List (List α)) : List (List α) :=
  (initIdxs pts.length k seed).map (fun i => pts.getD i [])

/-- Dimensionality of the feature space. -/
def dimOf (pts : List (List α)) : ℕ := (pts.headD []).length

/-- Modelled from the spec: one restart — initialize from the seed, run
Lloyd iteration with the 300-iteration cap, return the final centroids
and their inertia. -/
def runRestart (k seed : ℕ) (pts : List (List α)) : List (List α) × α :=
  let cs := lloydLoop (dimOf pts) pts 300 (initCentroids k seed pts)
  (cs, inertiaOf cs pts)

/-- Modelled from the spec: the `n_init` independent restarts, each with
its own deterministically derived seed. -/
def kmeansRestarts (k ninit seed : ℕ) (pts : List (List α)) : List (List (List α) × α) :=
  (List.range ninit).map (fun r => runRestart k (seed + r) pts)

/-- Modelled from the spec: keep the restart with the lowest final
inertia, ties broken by the earliest restart index (the fold only moves
on a strictly smaller inertia). -/
def pickBest (l : List (List (List α) × α)) : List (List α) × α :=
  match l with
  | [] => ([], 0)
  | x :: xs => xs.foldl (fun b y => if y.2 < b.2 then y else b) x

/-- Modelled from the spec: `KMeans(n_clusters=k, random_state=seed,
n_init=ninit).fit` — best of `ninit` restarts. -/
def kmeansFit (k ninit seed : ℕ) (pts : List (List α)) : List (List α) × α :=
  pickBest (kmeansRestarts k ninit seed pts)

end KMeans

/-- The metrics record written by the training stage. -/
structure FitMetrics where
  n_clusters : ℕ
  inertia : ℝ
  n_samples : ℕ
  n_features : ℕ

/-- The training stage `train_model`: drop the identifier column, fail
on any remaining missing value, standardize, fit K-means (fixed seed 42,
`n_init = 10`), and report the model with its metrics record. -/
noncomputable def train_model (t : Table) (k : ℕ) : Except String (List (List ℝ) × FitMetrics) :=
  let d := dropCustId t
  match nanCheck d with
  | Except.error e => Except.error e
  | Except.ok d' =>
    let fit := kmeansFit k 10 42 (scaledRows d')
    Except.ok (fit.1,
      { n_clusters := k, inertia := fit.2,
        n_samples := d'.rows.length, n_features := d'.header.length })

/-- The claim's reading of the Deduplicator: keep position `i` exactly
when no earlier position holds a value-equal row, and list the kept rows
in their original order. -/
def dedupSpec (l : List Row) : List Row :=
  ((List.range l.length).filter
      (fun i => decide (∀ j, j < i → l.getD j [] ≠ l.getD i []))).map
    (fun i => l.getD i [])

/-- `dedupSpec` relative to a set of rows already seen before the list. -/
def dedupSpecFrom (seen : List Row) (l : List Row) : List Row :=
  ((List.range l.length).filter
      (fun i => decide (l.getD i [] ∉ seen ∧ ∀ j, j < i → l.getD j [] ≠ l.getD i []))).map
    (fun i => l.getD i [])

/-- A one-column table exercising the spec's median example: values
`[1, 2, missing, 4]`. -/
def tMedian : Table :=
  { header := ["BALANCE"], numericCol := [true],
    rows := [[some (Val.num 1)], [some (Val.num 2)], [none], [some (Val.num 4)]] }

/-- A table whose only missing value sits in the identifier column. -/
def tMissingId : Table :=
  { header := ["CUST_ID", "BALANCE"], numericCol := [false, true],
    rows := [[none, some (Val.num 100)]] }

/-- A clean numeric table with no missing values. -/
def tClean : Table :=
  { header := ["BALANCE"], numericCol := [true],
    rows := [[some (Val.num 5)], [some (Val.num 7)]] }

/-! ## Preprocessing: residual fill and missing-value count -/

lemma countMissing_fillZeroTable (t : Table) : countMissing (fillZeroTable t) = 0 := by
  unfold countMissing fillZeroTable
  simp [List.countP_map, Function.comp_def]

/-- Claim C2: for every input table, the table persisted by the
preprocessing stage (imputation, deduplication, residual fallback fill)
contains zero missing values. -/
theorem preprocess_data_no_missing (t : Table) : countMissing (preprocess_data t) = 0 := by
  unfold preprocess_data
  by_cases h : 0 < countMissing (dedupTable (imputeTable t))
  · simp only [if_pos h]
    exact countMissing_fillZeroTable _
  · simp only [if_neg h]
    omega

/-! ## Deduplication -/

lemma mem_dropDupsAux {r : Row} : ∀ (l seen : List Row), r ∈ dropDupsAux seen l → r ∈ l := by
  intro l
  induction l with
  | nil => intro seen h; simp [dropDupsAux] at h
  | cons x xs ih =>
    intro seen h
    unfold dropDupsAux at h
    by_cases hx : x ∈ seen
    · simp only [if_pos hx] at h
      exact List.mem_cons_of_mem _ (ih seen h)
    · simp only [if_neg hx, List.mem_cons] at h
      rcases h with h | h
      · exact h ▸ List.mem_cons_self _ _
      · exact List.mem_cons_of_mem _ (ih (x :: seen) h)

lemma not_mem_seen_of_mem_dropDupsAux {r : Row} :
    ∀ (l seen : List Row), r ∈ dropDupsAux seen l → r ∉ seen := by
  intro l
  induction l with
  | nil => intro seen h; simp [dropDupsAux] at h
  | cons x xs ih =>
    intro seen h
    unfold dropDupsAux at h
    by_cases hx : x ∈ seen
    · simp only [if_pos hx] at h
      exact ih seen h
    · simp only [if_neg hx, List.mem_cons] at h
      rcases h with h | h
      · exact h ▸ hx
      · intro hr
        exact ih (x :: seen) h (List.mem_cons_of_mem _ hr)

lemma nodup_dropDupsAux : ∀ (l seen : List Row), (dropDupsAux seen l).Nodup := by
  intro l
  induction l with
  | nil => intro seen; simp [dropDupsAux]
  | cons x xs ih =>
    intro seen
    unfold dropDupsAux
    by_cases hx : x ∈ seen
    · simp only [if_pos hx]
      exact ih seen
    · simp only [if_neg hx]
      refine List.nodup_cons.mpr ⟨?_, ih (x :: seen)⟩
      intro hmem
      exact not_mem_seen_of_mem_dropDupsAux xs (x :: seen) hmem (List.mem_cons_self _ _)

lemma dropDupsAux_eq_self :
    ∀ (l seen : List Row), l.Nodup → (∀ r ∈ l, r ∉ seen) → dropDupsAux seen l = l := by
  intro l
  induction l with
  | nil => intro seen _ _; rfl
  | cons x xs ih =>
    intro seen hnd hseen
    unfold dropDupsAux
    have hx : x ∉ seen := hseen x (List.mem_cons_self _ _)
    simp only [if_neg hx]
    congr 1
    refine ih (x :: seen) (List.nodup_cons.mp hnd).2 ?_
    intro r hr
    simp only [List.mem_cons]
    rintro (h | h)
    · exact (List.nodup_cons.mp hnd).1 (h ▸ hr)
    · exact hseen r (List.mem_cons_of_mem _ hr) h

/-- Claim C9: applying the Deduplicator twice removes nothing further on
the second pass — deduplication is idempotent. -/
theorem dedupTable_idempotent (t : Table) : dedupTable (dedupTable t) = dedupTable t := by
  unfold dedupTable dropDuplicates
  simp only
  congr 1
  exact dropDupsAux_eq_self _ [] (nodup_dropDupsAux _ []) (by intro r _; exact List.not_mem_nil r)

lemma dedupSpecFrom_congr_seen (l : List Row) (s1 s2 : List Row)
    (h : ∀ v, v ∈ s1 ↔ v ∈ s2) : dedupSpecFrom s1 l = dedupSpecFrom s2 l := by
  unfold dedupSpecFrom
  congr 1
  apply List.filter_congr
  intro i _
  refine decide_eq_decide.mpr ?_
  rw [h]

lemma dedupSpecFrom_cons (seen : List Row) (x : Row) (xs : List Row) :
    dedupSpecFrom seen (x :: xs) =
      (if x ∈ seen then [] else [x]) ++ dedupSpecFrom (x :: seen) xs := by
  unfold dedupSpecFrom
  simp only [List.length_cons, List.range_succ_eq_map, List.filter_cons, List.filter_map,
    List.map_cons, List.map_map, List.getD_cons_zero, List.getD_cons_succ]
  have hfil : List.filter
      ((fun i => decide ((x :: xs).getD i [] ∉ seen ∧ ∀ j < i, (x :: xs).getD j [] ≠ (x :: xs).getD i [])) ∘
        Nat.succ) (List.range xs.length) =
      List.filter (fun i => decide (xs.getD i [] ∉ x :: seen ∧ ∀ j < i, xs.getD j [] ≠ xs.getD i []))
        (List.range xs.length) := by
    apply List.filter_congr
    intro i _
    simp only [Function.comp_apply, List.getD_cons_succ]
    refine decide_eq_decide.mpr ?_
    constructor
    · rintro ⟨hns, hall⟩
      refine ⟨?_, ?_⟩
      · simp only [List.mem_cons, not_or]
        constructor
        · intro heq
          exact hall 0 (Nat.succ_pos i) (by rw [List.getD_cons_zero, heq])
        · exact hns
      · intro j hj
        have hj1 := hall (j + 1) (Nat.succ_lt_succ hj)
        rwa [List.getD_cons_succ] at hj1
    · rintro ⟨hn, hall⟩
      simp only [List.mem_cons, not_or] at hn
      refine ⟨hn.2, ?_⟩
      intro j hj
      cases j with
      | zero =>
        rw [List.getD_cons_zero]
        intro heq
        exact hn.1 heq.symm
      | succ j' =>
        rw [List.getD_cons_succ]
        exact hall j' (Nat.lt_of_succ_lt_succ hj)
  rw [hfil]
  by_cases hx : x ∈ seen
  · simp [hx, List.map_map, Function.comp_def, List.getD_cons_succ]
  · simp [hx, List.map_map, Function.comp_def, List.getD_cons_succ, Nat.not_lt_zero]

lemma dropDupsAux_eq_dedupSpecFrom :
    ∀ (l seen : List Row), dropDupsAux seen l = dedupSpecFrom seen l := by
  intro l
  induction l with
  | nil => intro seen; rfl
  | cons x xs ih =>
    intro seen
    rw [dedupSpecFrom_cons]
    unfold dropDupsAux
    by_cases hx : x ∈ seen
    · simp only [if_pos hx, List.nil_append]
      rw [ih seen]
      refine dedupSpecFrom_congr_seen xs seen (x :: seen) (fun v => ?_)
      simp only [List.mem_cons]
      constructor
      · intro h; exact Or.inr h
      · rintro (h | h)
        · exact h ▸ hx
        · exact h
    · simp only [if_neg hx, List.singleton_append]
      rw [ih (x :: seen)]

lemma dedupSpec_eq_from_nil (l : List Row) : dedupSpec l = dedupSpecFrom [] l := by
  unfold dedupSpec dedupSpecFrom
  congr 1
  apply List.filter_congr
  intro i _
  refine decide_eq_decide.mpr ?_
  simp

/-- Claim C4: the Deduplicator removes exactly the rows value-equal
(across all columns) to an earlier row, keeps the first occurrence of
each distinct row, and preserves the relative order of survivors. -/
theorem dedupTable_keeps_first_occurrences (t : Table) :
    dedupTable t = { header := t.header, numericCol := t.numericCol, rows := dedupSpec t.rows } := by
  unfold dedupTable dropDuplicates
  rw [dropDupsAux_eq_dedupSpecFrom, dedupSpec_eq_from_nil]

/-! ## Imputer: cell-level characterization -/

lemma mapWithIdx_length (f : ℕ → Cell → Cell) :
    ∀ (r : Row) (s : ℕ), (mapWithIdx f s r).length = r.length := by
  intro r
  induction r with
  | nil => intro s; rfl
  | cons c cs ih => intro s; simp [mapWithIdx, ih]

lemma mapWithIdx_getD (f : ℕ → Cell → Cell) :
    ∀ (r : Row) (s j : ℕ), j < r.length →
      (mapWithIdx f s r).getD j none = f (s + j) (r.getD j none) := by
  intro r
  induction r with
  | nil => intro s j hj; simp at hj
  | cons c cs ih =>
    intro s j hj
    cases j with
    | zero => simp [mapWithIdx]
    | succ j' =>
      simp only [mapWithIdx, List.getD_cons_succ]
      rw [ih (s + 1) j' (by simpa using hj)]
      congr 1
      omega

lemma getD_map_rows (f : Row → Row) (rs : List Row) (i : ℕ) (hf : f [] = []) :
    (rs.map f).getD i [] = f (rs.getD i []) := by
  by_cases hi : i < rs.length
  · rw [List.getD_eq_getElem _ _ (by simpa using hi), List.getD_eq_getElem _ _ hi,
      List.getElem_map]
  · rw [List.getD_eq_default _ _ (by simpa using Nat.le_of_not_lt hi),
      List.getD_eq_default _ _ (Nat.le_of_not_lt hi), hf]

lemma fillRow_getD_ne (j : ℕ) (v : ℚ) (r : Row) (j' : ℕ) (hne : j' ≠ j) :
    (mapWithIdx (fun j'' c => if j'' = j ∧ c = none then some (Val.num v) else c) 0 r).getD
      j' none = r.getD j' none := by
  by_cases hj : j' < r.length
  · rw [mapWithIdx_getD _ r 0 j' hj]
    simp [hne]
  · rw [List.getD_eq_default _ _ (by rw [mapWithIdx_length]; omega),
      List.getD_eq_default _ _ (by omega)]

lemma fillColumn_rows_getD (t : Table) (j : ℕ) (v : ℚ) (i : ℕ) :
    (fillColumn t j v).rows.getD i [] =
      mapWithIdx (fun j' c => if j' = j ∧ c = none then some (Val.num v) else c) 0
        (t.rows.getD i []) :=
  getD_map_rows _ _ _ rfl

lemma cellAt_fillColumn_ne (t : Table) (j : ℕ) (v : ℚ) (i j' : ℕ) (hne : j' ≠ j) :
    cellAt (fillColumn t j v) i j' = cellAt t i j' := by
  unfold cellAt
  rw [fillColumn_rows_getD, fillRow_getD_ne _ _ _ _ hne]

lemma cellAt_fillColumn_self (t : Table) (j : ℕ) (v : ℚ) (i : ℕ)
    (hj : j < (t.rows.getD i []).length) :
    cellAt (fillColumn t j v) i j =
      if cellAt t i j = none then some (Val.num v) else cellAt t i j := by
  unfold cellAt
  rw [fillColumn_rows_getD, mapWithIdx_getD _ _ 0 j hj]
  simp

lemma colVals_fillColumn_ne (t : Table) (j : ℕ) (v : ℚ) (j' : ℕ) (hne : j' ≠ j) :
    colVals (fillColumn t j v) j' = colVals t j' := by
  unfold colVals fillColumn
  simp only [List.map_map]
  apply List.map_congr_left
  intro r _
  simp only [Function.comp_apply]
  exact fillRow_getD_ne _ _ _ _ hne

lemma fillValueFor_fillColumn_ne (t : Table) (j : ℕ) (v : ℚ) (j' : ℕ) (hne : j' ≠ j) :
    fillValueFor (fillColumn t j v) j' = fillValueFor t j' := by
  unfold fillValueFor
  rw [colVals_fillColumn_ne _ _ _ _ hne]

lemma countMissingCol_pos_of_cellAt_none (t : Table) (i j : ℕ) (hi : i < t.rows.length)
    (hc : cellAt t i j = none) : 0 < countMissingCol t j := by
  unfold countMissingCol
  rw [List.countP_pos_iff]
  unfold cellAt at hc
  refine ⟨(t.rows.getD i []).getD j none, ?_, by rw [hc]; rfl⟩
  unfold colVals
  exact List.mem_map.mpr ⟨t.rows.getD i [], by rw [List.getD_eq_getElem _ _ hi]; exact List.getElem_mem _, rfl⟩

lemma imputeStep_header (acc : Table) (k : ℕ) : (imputeStep acc k).header = acc.header := by
  unfold imputeStep
  split <;> rfl

lemma imputeStep_numericCol (acc : Table) (k : ℕ) :
    (imputeStep acc k).numericCol = acc.numericCol := by
  unfold imputeStep
  split <;> rfl

lemma imputeStep_rows_length (acc : Table) (k : ℕ) :
    (imputeStep acc k).rows.length = acc.rows.length := by
  unfold imputeStep
  split
  · simp [fillColumn]
  · rfl

lemma imputeStep_row_length (acc : Table) (k i : ℕ) :
    ((imputeStep acc k).rows.getD i []).length = (acc.rows.getD i []).length := by
  unfold imputeStep
  split
  · rw [fillColumn_rows_getD, mapWithIdx_length]
  · rfl

lemma cellAt_imputeStep_ne (acc : Table) (k i j : ℕ) (hne : j ≠ k) :
    cellAt (imputeStep acc k) i j = cellAt acc i j := by
  unfold imputeStep
  split
  · exact cellAt_fillColumn_ne _ _ _ _ _ hne
  · rfl

lemma fillValueFor_imputeStep_ne (acc : Table) (k j : ℕ) (hne : j ≠ k) :
    fillValueFor (imputeStep acc k) j = fillValueFor acc j := by
  unfold imputeStep
  split
  · exact fillValueFor_fillColumn_ne _ _ _ _ hne
  · rfl

lemma foldl_imputeStep_cellAt :
    ∀ (js : List ℕ) (acc : Table), js.Nodup → ∀ i j, i < acc.rows.length →
      j < (acc.rows.getD i []).length →
      cellAt (js.foldl imputeStep acc) i j =
        if j ∈ js ∧ acc.numericCol.getD j false = true ∧ cellAt acc i j = none
        then some (Val.num (fillValueFor acc j))
        else cellAt acc i j := by
  intro js
  induction js with
  | nil =>
    intro acc _ i j _ _
    simp
  | cons k rest ih =>
    intro acc hnd i j hi hj
    have hknr : k ∉ rest := (List.nodup_cons.mp hnd).1
    have hndr : rest.Nodup := (List.nodup_cons.mp hnd).2
    have hi' : i < (imputeStep acc k).rows.length := by rw [imputeStep_rows_length]; exact hi
    have hj' : j < ((imputeStep acc k).rows.getD i []).length := by
      rw [imputeStep_row_length]; exact hj
    rw [List.foldl_cons, ih (imputeStep acc k) hndr i j hi' hj']
    by_cases hjk : j = k
    · subst hjk
      have hnr : ¬ (j ∈ rest ∧ (imputeStep acc j).numericCol.getD j false = true ∧
          cellAt (imputeStep acc j) i j = none) := by
        intro h
        exact hknr h.1
      rw [if_neg hnr]
      unfold imputeStep
      by_cases hcond : acc.numericCol.getD j false = true ∧ 0 < countMissingCol acc j
      · rw [if_pos hcond, cellAt_fillColumn_self _ _ _ _ hj]
        by_cases hc : cellAt acc i j = none
        · rw [if_pos hc, if_pos ⟨List.mem_cons_self _ _, hcond.1, hc⟩]
        · rw [if_neg hc, if_neg (by intro h; exact hc h.2.2)]
      · rw [if_neg hcond]
        by_cases hc : cellAt acc i j = none
        · have hcm := countMissingCol_pos_of_cellAt_none acc i j hi hc
          have hflag : ¬ acc.numericCol.getD j false = true := by
            intro hf
            exact hcond ⟨hf, hcm⟩
          rw [if_neg (by intro h; exact hflag h.2.1)]
        · rw [if_neg (by intro h; exact hc h.2.2)]
    · rw [cellAt_imputeStep_ne _ _ _ _ hjk, fillValueFor_imputeStep_ne _ _ _ hjk,
        imputeStep_numericCol]
      by_cases hmem : j ∈ rest
      · simp [List.mem_cons, hmem]
      · simp [List.mem_cons, hmem, hjk]

lemma imputeTable_cellAt (t : Table) (i j : ℕ) (hi : i < t.rows.length)
    (hj : j < (t.rows.getD i []).length) (hjh : j < t.header.length) :
    cellAt (imputeTable t) i j =
      if t.numericCol.getD j false = true ∧ cellAt t i j = none
      then some (Val.num (fillValueFor t j))
      else cellAt t i j := by
  unfold imputeTable
  rw [foldl_imputeStep_cellAt (List.range t.header.length) t (List.nodup_range _) i j hi hj]
  simp [List.mem_range, hjh]

/-- Claim C1: for every table and every cell of a numeric column, a
missing entry is replaced by the median of that column's non-missing
values — `0` when the median is undefined because every value is
missing — while non-missing entries are unchanged. -/
theorem imputer_fills_median (t : Table) (i j : ℕ) (hi : i < t.rows.length)
    (hj : j < (t.rows.getD i []).length) (hjh : j < t.header.length) :
    cellAt (imputeTable t) i j =
      if t.numericCol.getD j false = true ∧ cellAt t i j = none
      then some (Val.num (fillValueFor t j))
      else cellAt t i j :=
  imputeTable_cellAt t i j hi hj hjh

/-- Witness for C1 on the spec's median example: the missing entry of
the column `[1, 2, missing, 4]` is imputed to `2`, the median of
`[1, 2, 4]`. -/
theorem imputer_fills_median_witness :
    cellAt (imputeTable tMedian) 2 0 = some (Val.num 2) :=
  (imputer_fills_median tMedian 2 0 (by decide) (by decide) (by decide)).trans (by decide)

lemma countMissing_pos_of_cellAt_none (t : Table) (i j : ℕ) (hi : i < t.rows.length)
    (hj : j < (t.rows.getD i []).length) (hc : cellAt t i j = none) :
    0 < countMissing t := by
  unfold countMissing
  have hrow : 0 < (t.rows.getD i []).countP (fun c => c.isNone) := by
    rw [List.countP_pos_iff]
    unfold cellAt at hc
    refine ⟨(t.rows.getD i []).getD j none, ?_, by rw [hc]; rfl⟩
    rw [List.getD_eq_getElem _ _ hj]
    exact List.getElem_mem _
  have hmem : (t.rows.getD i []).countP (fun c => c.isNone) ∈
      t.rows.map (fun r => r.countP (fun c => c.isNone)) := by
    refine List.mem_map.mpr ⟨t.rows.getD i [], ?_, rfl⟩
    rw [List.getD_eq_getElem _ _ hi]
    exact List.getElem_mem _
  calc 0 < (t.rows.getD i []).countP (fun c => c.isNone) := hrow
    _ ≤ (t.rows.map (fun r => r.countP (fun c => c.isNone))).sum :=
        List.single_le_sum (fun x _ => Nat.zero_le x) _ hmem

lemma cellAt_fillZeroTable (t : Table) (i j : ℕ)
    (hj : j < (t.rows.getD i []).length) :
    cellAt (fillZeroTable t) i j = some ((cellAt t i j).getD (Val.num 0)) := by
  unfold cellAt fillZeroTable
  rw [getD_map_rows _ _ _ rfl]
  rw [List.getD_eq_getElem _ _ (by simpa using hj), List.getD_eq_getElem _ _ hj,
    List.getElem_map]

/-- Claim C10: when missing values survive imputation and deduplication,
the residual fallback replaces every one of them — in every column,
including non-numeric identifier columns the Imputer never touches — by
the number `0` in the persisted table. -/
theorem residual_fallback_fills_zero (t : Table) (i j : ℕ)
    (hi : i < (dedupTable (imputeTable t)).rows.length)
    (hj : j < ((dedupTable (imputeTable t)).rows.getD i []).length)
    (hc : cellAt (dedupTable (imputeTable t)) i j = none) :
    cellAt (preprocess_data t) i j = some (Val.num 0) ∧
    (∀ i' j', i' < t.rows.length → j' < (t.rows.getD i' []).length → j' < t.header.length →
      t.numericCol.getD j' false = false → cellAt (imputeTable t) i' j' = cellAt t i' j') := by
  constructor
  · have hpos := countMissing_pos_of_cellAt_none _ i j hi hj hc
    unfold preprocess_data
    simp only [if_pos hpos]
    rw [cellAt_fillZeroTable _ i j hj, hc]
    rfl
  · intro i' j' hi' hj' hjh' hflag
    rw [imputeTable_cellAt t i' j' hi' hj' hjh']
    rw [if_neg (by rw [hflag]; simp)]

/-- Witness for C10: a table whose identifier column holds the only
missing value; preprocessing persists it as the number `0`. -/
theorem residual_fallback_fills_zero_witness :
    cellAt (preprocess_data tMissingId) 0 0 = some (Val.num 0) :=
  (residual_fallback_fills_zero tMissingId 0 0 (by decide) (by decide) (by decide)).1

/-- Counterexample to C3 as stated: this table still contains a missing
value (its `CUST_ID` entry), yet the training stage does not fail,
because the missing-value scan runs only after the identifier column has
been dropped. -/
theorem validator_miss_in_id_no_error :
    0 < countMissing tMissingId ∧ (train_model tMissingId 4).isOk = true := by
  constructor
  · decide
  · rfl

/-- Claim C3 (amended): the training stage fails with an error iff the
table obtained by dropping the identifier column still contains at
least one missing value; when it does not, the validator passes that
post-drop table on unchanged (no silent fill) to standardization. -/
theorem validator_fails_iff_post_drop_missing (t : Table) (k : ℕ) :
    ((∃ e, train_model t k = Except.error e) ↔ 0 < countMissing (dropCustId t)) ∧
    (countMissing (dropCustId t) = 0 → nanCheck (dropCustId t) = Except.ok (dropCustId t)) := by
  constructor
  · unfold train_model nanCheck
    by_cases h : 0 < countMissing (dropCustId t)
    · simp only [if_pos h]
      constructor
      · intro _
        exact h
      · intro _
        exact ⟨_, rfl⟩
    · simp only [if_neg h]
      constructor
      · rintro ⟨e, he⟩
        simp at he
      · intro hh
        exact absurd hh h
  · intro h0
    unfold nanCheck
    rw [if_neg (by omega)]

/-- Witness for C3 (amended): on a clean table the validator passes the
post-drop table on unchanged. -/
theorem validator_fails_iff_post_drop_missing_witness :
    nanCheck (dropCustId tClean) = Except.ok (dropCustId tClean) :=
  (validator_fails_iff_post_drop_missing tClean 4).2 (by decide)

/-! ## Standardizer -/

lemma sum_map_sub_const (xs : List ℝ) (c : ℝ) :
    (xs.map (fun x => x - c)).sum = xs.sum - xs.length * c := by
  induction xs with
  | nil => simp
  | cons x l ih =>
    simp only [List.map_cons, List.sum_cons, List.length_cons, ih]
    push_cast
    ring

lemma colVarP_nonneg (xs : List ℝ) : 0 ≤ colVarP xs := by
  unfold colVarP
  refine div_nonneg (List.sum_nonneg ?_) (by positivity)
  intro x hx
  obtain ⟨y, _, rfl⟩ := List.mem_map.mp hx
  exact sq_nonneg _

lemma ne_nil_of_colVarP_ne_zero (xs : List ℝ) (h : colVarP xs ≠ 0) : xs ≠ [] := by
  intro hnil
  subst hnil
  exact h (by simp [colVarP])

lemma length_cast_ne_zero_of_colVarP_ne_zero (xs : List ℝ) (h : colVarP xs ≠ 0) :
    (xs.length : ℝ) ≠ 0 := by
  have := ne_nil_of_colVarP_ne_zero xs h
  simpa [List.length_eq_zero] using this

lemma colMean_standardizeCol (xs : List ℝ) (h : colVarP xs ≠ 0) :
    colMean (standardizeCol xs) = 0 := by
  have hn : (xs.length : ℝ) ≠ 0 := length_cast_ne_zero_of_colVarP_ne_zero xs h
  unfold colMean standardizeCol
  simp only [List.length_map]
  rw [show (fun x => (x - colMean xs) / scaleOf xs) =
      (fun x => (x - colMean xs) * (scaleOf xs)⁻¹) from funext (fun x => div_eq_mul_inv _ _)]
  rw [List.sum_map_mul_right, sum_map_sub_const]
  unfold colMean
  field_simp

lemma sum_sq_comp_eq_zero (f : ℝ → ℝ) :
    ∀ (l : List ℝ), (l.map (fun x => (f x) ^ 2)).sum = 0 → ∀ x ∈ l, f x = 0 := by
  intro l
  induction l with
  | nil => simp
  | cons a l ih =>
    intro h x hx
    simp only [List.map_cons, List.sum_cons] at h
    have h2 : 0 ≤ (l.map fun x => (f x) ^ 2).sum := by
      refine List.sum_nonneg ?_
      intro y hy
      obtain ⟨z, _, rfl⟩ := List.mem_map.mp hy
      exact sq_nonneg _
    have h1 : 0 ≤ (f a) ^ 2 := sq_nonneg _
    rcases List.mem_cons.mp hx with rfl | hx'
    · have : (f x) ^ 2 = 0 := by linarith
      exact pow_eq_zero_iff (by norm_num) |>.mp this
    · exact ih (by linarith) x hx'

lemma standardizeCol_of_colVarP_eq_zero (xs : List ℝ) (h : colVarP xs = 0) :
    standardizeCol xs = List.replicate xs.length 0 := by
  rcases List.eq_nil_or_concat xs with rfl | _
  · rfl
  · have hall : ∀ x ∈ xs, x - colMean xs = 0 := by
      by_cases hn : (xs.length : ℝ) = 0
      · intro x hx
        have hxs : xs = [] := List.length_eq_zero.mp (by exact_mod_cast hn)
        rw [hxs] at hx
        simp at hx
      · refine sum_sq_comp_eq_zero (fun x => x - colMean xs) xs ?_
        unfold colVarP at h
        exact (div_eq_zero_iff.mp h).resolve_right hn
    unfold standardizeCol
    have : xs.map (fun x => (x - colMean xs) / scaleOf xs) =
        List.replicate (xs.map (fun x => (x - colMean xs) / scaleOf xs)).length 0 := by
      rw [List.eq_replicate_length]
      intro b hb
      obtain ⟨x, hx, rfl⟩ := List.mem_map.mp hb
      rw [hall x hx, zero_div]
    rw [this, List.length_map]

lemma colVarP_standardizeCol (xs : List ℝ) (h : colVarP xs ≠ 0) :
    colVarP (standardizeCol xs) = 1 := by
  have hn : (xs.length : ℝ) ≠ 0 := length_cast_ne_zero_of_colVarP_ne_zero xs h
  have hvar_pos : 0 < colVarP xs := (colVarP_nonneg xs).lt_of_ne (Ne.symm h)
  have hstd_pos : 0 < colStd xs := Real.sqrt_pos.mpr hvar_pos
  have hscale : scaleOf xs = colStd xs := if_neg (ne_of_gt hstd_pos)
  have hsq : (colStd xs) ^ 2 = colVarP xs := Real.sq_sqrt (le_of_lt hvar_pos)
  unfold colVarP
  rw [colMean_standardizeCol xs h]
  simp only [sub_zero]
  unfold standardizeCol
  rw [List.map_map, List.length_map]
  have hcomp : ((fun x => x ^ 2) ∘ fun x => (x - colMean xs) / scaleOf xs) =
      fun x => (x - colMean xs) ^ 2 * ((scaleOf xs)⁻¹) ^ 2 := by
    funext x
    simp [div_eq_mul_inv, mul_pow, Function.comp]
  rw [hcomp, List.sum_map_mul_right, hscale, inv_pow, hsq]
  have hS : (xs.map (fun x => (x - colMean xs) ^ 2)).sum = colVarP xs * xs.length := by
    unfold colVarP
    field_simp
  rw [hS]
  field_simp

lemma colStd_standardizeCol (xs : List ℝ) (h : colVarP xs ≠ 0) :
    colStd (standardizeCol xs) = 1 := by
  unfold colStd
  rw [colVarP_standardizeCol xs h, Real.sqrt_one]

/-- Claim C5: a feature column with non-zero variance standardizes to
mean 0 and standard deviation 1 exactly; a zero-variance column is
mapped to the all-zero column, with no division by zero or undefined
value propagated. -/
theorem standardizer_mean_zero_std_one (xs : List ℝ) :
    (colVarP xs ≠ 0 → colMean (standardizeCol xs) = 0 ∧ colStd (standardizeCol xs) = 1) ∧
    (colVarP xs = 0 → standardizeCol xs = List.replicate xs.length 0) :=
  ⟨fun h => ⟨colMean_standardizeCol xs h, colStd_standardizeCol xs h⟩,
   fun h => standardizeCol_of_colVarP_eq_zero xs h⟩

/-- Witness for C5 at the column `[0, 2]` (variance `1`). -/
theorem standardizer_mean_zero_std_one_witness :
    colMean (standardizeCol [(0 : ℝ), 2]) = 0 ∧ colStd (standardizeCol [(0 : ℝ), 2]) = 1 :=
  (standardizer_mean_zero_std_one [(0 : ℝ), 2]).1 (by norm_num [colVarP, colMean])

/-! ## ClusterFitter and metrics -/

lemma foldl_min_le {α : Type} [LinearOrderedField α] :
    ∀ (xs : List (List (List α) × α)) (b : List (List α) × α),
      (xs.foldl (fun b y => if y.2 < b.2 then y else b) b).2 ≤ b.2 ∧
      ∀ y ∈ xs, (xs.foldl (fun b y => if y.2 < b.2 then y else b) b).2 ≤ y.2 := by
  intro xs
  induction xs with
  | nil => intro b; exact ⟨le_refl _, by simp⟩
  | cons y ys ih =>
    intro b
    simp only [List.foldl_cons]
    have hstep : (if y.2 < b.2 then y else b).2 ≤ b.2 ∧ (if y.2 < b.2 then y else b).2 ≤ y.2 := by
      by_cases hy : y.2 < b.2
      · rw [if_pos hy]
        exact ⟨le_of_lt hy, le_refl _⟩
      · rw [if_neg hy]
        exact ⟨le_refl _, le_of_not_lt hy⟩
    obtain ⟨h1, h2⟩ := ih (if y.2 < b.2 then y else b)
    refine ⟨le_trans h1 hstep.1, ?_⟩
    intro z hz
    rcases List.mem_cons.mp hz with rfl | hz'
    · exact le_trans h1 hstep.2
    · exact h2 z hz'

lemma pickBest_le {α : Type} [LinearOrderedField α] (l : List (List (List α) × α)) :
    ∀ r ∈ l, (pickBest l).2 ≤ r.2 := by
  intro r hr
  match l with
  | [] => exact absurd hr (List.not_mem_nil r)
  | x :: xs =>
    unfold pickBest
    rcases List.mem_cons.mp hr with rfl | hr'
    · exact (foldl_min_le xs r).1
    · exact (foldl_min_le xs x).2 r hr'

/-- Claim C6: the restart selected as the model output has inertia less
than or equal to the final inertia of every restart performed. -/
theorem kmeans_selected_min_inertia {α : Type} [LinearOrderedField α]
    (k ninit seed : ℕ) (pts : List (List α)) :
    ∀ r ∈ kmeansRestarts k ninit seed pts, (kmeansFit k ninit seed pts).2 ≤ r.2 := by
  intro r hr
  unfold kmeansFit
  exact pickBest_le _ r hr

/-- Witness for C6 at a concrete run (one restart, one empty point). -/
theorem kmeans_selected_min_inertia_witness :
    (kmeansFit 1 1 0 ([] : List (List ℚ))).2 ≤ 0 :=
  kmeans_selected_min_inertia 1 1 0 [] ([[]], 0) (by decide)

/-- Claim C7: two training runs with the same fixed seed and the same
`n_init` on the same standardized table produce identical centroid sets
and identical inertia — the fit is a deterministic function of the seed,
the restart count and the table. -/
theorem kmeans_deterministic {α : Type} [LinearOrderedField α]
    (k ninit seed : ℕ) (X Y : List (List α)) (h : X = Y) :
    (kmeansFit k ninit seed X).1 = (kmeansFit k ninit seed Y).1 ∧
    (kmeansFit k ninit seed X).2 = (kmeansFit k ninit seed Y).2 := by
  subst h
  exact ⟨rfl, rfl⟩

/-- Witness for C7 at a concrete run. -/
theorem kmeans_deterministic_witness :
    (kmeansFit 1 1 0 ([[0]] : List (List ℚ))).1 = (kmeansFit 1 1 0 [[0]]).1 ∧
    (kmeansFit 1 1 0 ([[0]] : List (List ℚ))).2 = (kmeansFit 1 1 0 [[0]]).2 :=
  kmeans_deterministic 1 1 0 [[0]] [[0]] rfl

/-- Claim C8: a completed training run writes a metrics record with the
fields n_clusters, inertia, n_samples and n_features, and its n_clusters
field equals the configured cluster count `k` (whether or not some
clusters end up empty, which the record never consults). -/
theorem metrics_n_clusters_eq_k (t : Table) (k : ℕ) (m : List (List ℝ)) (met : FitMetrics)
    (h : train_model t k = Except.ok (m, met)) : met.n_clusters = k := by
  unfold train_model nanCheck at h
  by_cases hc : 0 < countMissing (dropCustId t)
  · simp [hc] at h
  · simp only [hc, if_false, Except.ok.injEq, Prod.mk.injEq] at h
    rw [← h.2]

/-- Witness for C8: training on a clean table with `k = 4` writes
`n_clusters = 4`. -/
theorem metrics_n_clusters_eq_k_witness :
    ∃ m met, train_model tClean 4 = Except.ok (m, met) ∧ met.n_clusters = 4 :=
  ⟨_, _, rfl, metrics_n_clusters_eq_k tClean 4 _ _ rfl⟩
